import Mathlib

/-
Verification of the mab-calculator repository.

Shallow embedding of the two source files:
  * src/backend/pdf_parser.py : `parse_transactions` (text → transaction records),
  * src/backend/app.py        : `calculate_daily_balances`, `calculate_monthly_statistics`,
                                `analyze_balance_maintenance`.

Modelling conventions:
  * Python strings are `List Char`; Python `\s`, `\d` and `str.strip` are taken at their
    ASCII meaning (the statements' inputs are ASCII bank-statement text).
  * Monetary values are `ℚ`.  The Python code converts matched decimal strings with
    `float` and afterwards only copies, compares, adds and divides these values; the
    exact-rational reading abstracts the float representation.
  * Calendar dates on the analytics side are proleptic-Gregorian day ordinals (`ℤ`,
    days since 1970-01-01).  `datetime` values parsed with '%d %b %Y' are midnight
    datetimes, so they are order-isomorphic to their ordinals, `timedelta(days=1)`
    is `+ 1`, `(e - s).days` is `e - s`, and `strftime('%Y-%m-%d')` is injective,
    so dictionary keys can be the ordinals themselves.  Year and month of an ordinal
    are computed by the standard civil-from-days conversion (`dayToYMD`).
  * Python's `re.findall`/`re.search` are modelled operationally for the two concrete
    patterns in the source, including greedy matching with backtracking and the fact
    that `findall` consumes the boundary whitespace of the amount pattern, making
    matches non-overlapping.
-/

/- ===================== pdf_parser.py : character classes ===================== -/

/-- Python `\d` (ASCII): a decimal digit. -/
def isPyDigit (c : Char) : Bool := '0' ≤ c && c ≤ '9'

/-- Python `\s` / `str.strip` whitespace (ASCII): space, tab, newline, CR, VT, FF. -/
def isPySpace (c : Char) : Bool :=
  c = ' ' || c = '\t' || c = '\n' || c = '\r' || c = '\x0b' || c = '\x0c'

/-- Python substring test `pat in line`. -/
def containsSub (line pat : List Char) : Bool :=
  if pat.isPrefixOf line then true
  else match line with
       | [] => false
       | _ :: t => containsSub t pat

/-- Python `text.split("\n")`: split at every newline, keeping empty pieces. -/
def splitOnNL : List Char → List (List Char)
  | [] => [[]]
  | c :: rest =>
    if c = '\n' then [] :: splitOnNL rest
    else match splitOnNL rest with
         | [] => [[c]]
         | h :: t => (c :: h) :: t

/-- Python `" ".join(rows)`. -/
def joinSpaces : List (List Char) → List Char
  | [] => []
  | [r] => r
  | r :: rs => r ++ ' ' :: joinSpaces rs

/-- Python truthiness of `line.strip()` being empty: every character is whitespace. -/
def isBlank (l : List Char) : Bool := l.all isPySpace

/- ===================== pdf_parser.py : the date pattern =====================
   date_pattern = r"(\d{1,2}\s+(?:Jan|Feb|Mar|Apr|May|Jun|Jul|Aug|Sep|Oct|Nov|Dec)\s+\d{4})"
-/

/-- Maximal whitespace prefix and the remainder: the greedy `\s+` step.  Giving back
whitespace characters could never help the regex engine here, because the tokens that
follow `\s+` in the date pattern (a month letter, a digit) never match whitespace, so
maximal munch is exact. -/
def spanSpaces : List Char → List Char × List Char
  | [] => ([], [])
  | c :: cs =>
    if isPySpace c then
      let p := spanSpaces cs
      (c :: p.1, p.2)
    else ([], c :: cs)

/-- The month alternation, in the source's order. -/
def monthNames : List (List Char) :=
  ["Jan", "Feb", "Mar", "Apr", "May", "Jun",
   "Jul", "Aug", "Sep", "Oct", "Nov", "Dec"].map String.data

/-- First month name that is a prefix of the input, with the remainder. -/
def monthMatchAux : List (List Char) → List Char → Option (List Char × List Char)
  | [], _ => none
  | m :: ms, cs =>
    if m.isPrefixOf cs then some (m, cs.drop m.length)
    else monthMatchAux ms cs

def monthMatch (cs : List Char) : Option (List Char × List Char) :=
  monthMatchAux monthNames cs

/-- Matches `\s+MON\s+\d{4}` at the head of the input; returns the consumed characters.
`\d{4}` consumes exactly four digits, unbounded on the right. -/
def dateTail (cs : List Char) : Option (List Char) :=
  match spanSpaces cs with
  | ([], _) => none
  | (c1 :: sp1, r1) =>
    match monthMatch r1 with
    | none => none
    | some (mon, r2) =>
      match spanSpaces r2 with
      | ([], _) => none
      | (c2 :: sp2, r3) =>
        match r3 with
        | d1 :: d2 :: d3 :: d4 :: _ =>
          if isPyDigit d1 && isPyDigit d2 && isPyDigit d3 && isPyDigit d4 then
            some ((c1 :: sp1) ++ mon ++ (c2 :: sp2) ++ [d1, d2, d3, d4])
          else none
        | _ => none

/-- Match of the full date pattern at the head of the input, returning group(1).
`\d{1,2}` is greedy: the two-digit reading is tried first, then the one-digit
reading. -/
def matchDateAt (cs : List Char) : Option (List Char) :=
  match cs with
  | [] => none
  | a :: rest =>
    if isPyDigit a then
      match rest with
      | [] => none
      | b :: rest2 =>
        if isPyDigit b then
          match dateTail rest2 with
          | some t => some (a :: b :: t)
          | none =>
            match dateTail rest with
            | some t => some (a :: t)
            | none => none
        else
          match dateTail rest with
          | some t => some (a :: t)
          | none => none
    else none

/-- Python `re.search(date_pattern, s)`: leftmost match, scanning positions left to
right. -/
def searchDate : List Char → Option (List Char)
  | [] => none
  | c :: cs =>
    match matchDateAt (c :: cs) with
    | some cap => some cap
    | none => searchDate cs

/- ===================== pdf_parser.py : the amount pattern =====================
   amount_pattern = r"(?:^|\s)([\d,]+\.\d{2})(?:\s|$)"
-/

/-- Matches `([\d,]+\.\d{2})(?:\s|$)` at the head of the input; returns the captured
group and the remainder after the whole match (one boundary whitespace character, if
present, is consumed and hence unavailable to the next match).  `[\d,]+` is greedy;
shrinking it would place the `\.` on a digit or comma, so maximal munch is exact. -/
def matchAmtBody (cs : List Char) : Option (List Char × List Char) :=
  let run := cs.takeWhile (fun c => isPyDigit c || c = ',')
  if run = [] then none
  else
    match cs.drop run.length with
    | '.' :: d1 :: d2 :: rest =>
      if isPyDigit d1 && isPyDigit d2 then
        match rest with
        | [] => some (run ++ '.' :: [d1, d2], [])
        | c :: rest2 =>
          if isPySpace c then some (run ++ '.' :: [d1, d2], rest2) else none
      else none
    | _ => none

/-- Python `re.findall(amount_pattern, s)`: scan left to right; at the start of the
string the zero-width `^` alternative is tried before `\s`; after a successful match
scanning resumes at the match end.  The fuel is the input length: every step consumes
at least one character, so it is never exhausted. -/
def findAmountsAux : Nat → List Char → Bool → List (List Char)
  | 0, _, _ => []
  | _ + 1, [], _ => []
  | n + 1, c :: rest, atStart =>
    if atStart then
      match matchAmtBody (c :: rest) with
      | some (cap, rem) => cap :: findAmountsAux n rem false
      | none =>
        if isPySpace c then
          match matchAmtBody rest with
          | some (cap, rem) => cap :: findAmountsAux n rem false
          | none => findAmountsAux n rest false
        else findAmountsAux n rest false
    else
      if isPySpace c then
        match matchAmtBody rest with
        | some (cap, rem) => cap :: findAmountsAux n rem false
        | none => findAmountsAux n rest false
      else findAmountsAux n rest false

def findAmountCaptures (cs : List Char) : List (List Char) :=
  findAmountsAux cs.length cs true

/-- Decimal digits to a natural number. -/
def digitsToNat (l : List Char) : Nat :=
  l.foldl (fun acc c => 10 * acc + (c.toNat - '0'.toNat)) 0

/-- Python `float(a.replace(",", ""))` on a captured amount `RUN.DD`: drop the commas
and read the decimal number exactly. -/
def amtToRat (s : List Char) : ℚ :=
  let t := s.filter (fun c => c ≠ ',')
  let intPart := t.takeWhile (fun c => c ≠ '.')
  let frac := t.drop (intPart.length + 1)
  (digitsToNat intPart : ℚ) + (digitsToNat frac : ℚ) / (10 : ℚ) ^ frac.length

/-- `amounts = [float(a.replace(",", "")) for a in re.findall(amount_pattern, s) if a]`. -/
def findAmounts (cs : List Char) : List ℚ :=
  ((findAmountCaptures cs).filter (fun a => a ≠ [])).map amtToRat

/- ===================== pdf_parser.py : parse_transactions ===================== -/

/-- `any(x in full_text.lower() for x in ["debit", "transfer to", "paid to"])`. -/
def isDebitText (ft : List Char) : Bool :=
  let low := ft.map Char.toLower
  containsSub low "debit".data || containsSub low "transfer to".data ||
    containsSub low "paid to".data

/-- The debit/credit/balance triple computed from a block's joined text
(pdf_parser.py lines 122-149 and 172-190; both occurrences are the same code).
Matching on the reversed amount list renders Python's `amounts[-1]` / `amounts[-2]`
and the `if amounts` / `if len(amounts) > 1` branches. -/
def buildCore (ft : List Char) : ℚ × ℚ × ℚ :=
  match (findAmounts ft).reverse with
  | [] => (0, 0, 0)
  | [b] => (0, 0, b)
  | b :: a :: _ =>
    if isDebitText ft then (a, 0, b) else (0, a, b)

/-- One parsed transaction record.  `amountKey` models the optional `"amount"`
dictionary key: `none` when the record was built without it. -/
structure Transaction where
  date : List Char
  debit : ℚ
  credit : ℚ
  balance : ℚ
  amountKey : Option ℚ
  description : List Char
deriving DecidableEq

/-- A transaction finalized mid-document (pdf_parser.py lines 154-160): no `"amount"`
key; the description is `full_text.split("\n")[0]`. -/
def mkMidTx (ft dateStr : List Char) : Transaction :=
  let p := buildCore ft
  { date := dateStr
    debit := p.1
    credit := p.2.1
    balance := p.2.2
    amountKey := none
    description := ft.takeWhile (fun c => c ≠ '\n') }

/-- The transaction built from the final block (pdf_parser.py lines 197-206): its
dictionary literal repeats the `"balance"` and `"amount"` keys with identical values,
so the record carries `"amount" = -debit if debit > 0 else credit`. -/
def mkFinalTx (ft dateStr : List Char) : Transaction :=
  let p := buildCore ft
  { date := dateStr
    debit := p.1
    credit := p.2.1
    balance := p.2.2
    amountKey := some (if p.1 > 0 then -p.1 else p.2.1)
    description := ft.takeWhile (fun c => c ≠ '\n') }

/-- The loop state of `parse_transactions`. -/
structure PState where
  transactions : List Transaction
  current_row : List (List Char)
  inside_table : Bool
  header_found : Bool

/-- The body of the `for line in lines` loop of `parse_transactions`. -/
def processLine (st : PState) (line : List Char) : PState :=
  if !st.header_found && containsSub line "Txn Date".data &&
     containsSub line "Date".data && containsSub line "Description".data then
    { st with header_found := true }
  else if !st.header_found then st
  else if isBlank line || containsSub line "Txn Date".data then st
  else
    match searchDate line with
    | some dateStr =>
      let st1 :=
        if st.current_row ≠ [] then
          { st with transactions :=
              st.transactions ++ [mkMidTx (joinSpaces st.current_row) dateStr] }
        else st
      { st1 with current_row := [line], inside_table := true }
    | none =>
      if st.inside_table && !isBlank line then
        { st with current_row := st.current_row ++ [line] }
      else st

/-- pdf_parser.py `parse_transactions`: run the line loop, then finalize the last
open block (the final block emits a record only when `re.search` finds a date in its
joined text). -/
def parseTransactions (text : List Char) : List Transaction :=
  let lines := splitOnNL text
  let st := lines.foldl processLine ⟨[], [], false, false⟩
  if st.current_row = [] then st.transactions
  else
    let ft := joinSpaces st.current_row
    match searchDate ft with
    | some ds => st.transactions ++ [mkFinalTx ft ds]
    | none => st.transactions

/- ===================== app.py : data model for the analytics ===================== -/

/-- A transaction as consumed by the balance analytics: the `'date'` field as the day
ordinal of the datetime parsed with '%d %b %Y', and the `'balance'` field. -/
structure BTx where
  date : ℤ
  balance : ℚ
deriving DecidableEq

/-- The filter predicate `datetime.strptime(t['date'], '%d %b %Y').date() == current_date.date()`. -/
def onDay (d : ℤ) (t : BTx) : Bool := t.date = d

/-- `sorted(transactions, key=lambda x: datetime.strptime(x['date'], '%d %b %Y'))`:
Python's sort is the stable ascending sort, which insertion sort with `≤` on the key
computes. -/
def sortByDate (l : List BTx) : List BTx :=
  l.insertionSort (fun a b => a.date ≤ b.date)

/-- Civil-from-days: day ordinal (days since 1970-01-01, proleptic Gregorian) to
(year, month, day).  This is the standard closed-form conversion; all divisions are
floor divisions (the operands of the inner ones are non-negative). -/
def dayToYMD (z0 : ℤ) : ℤ × ℤ × ℤ :=
  let z := z0 + 719468
  let era := z.fdiv 146097
  let doe := z - era * 146097
  let yoe := (doe - doe.fdiv 1460 + doe.fdiv 36524 - doe.fdiv 146096).fdiv 365
  let y := yoe + era * 400
  let doy := doe - (365 * yoe + yoe.fdiv 4 - yoe.fdiv 100)
  let mp := (5 * doy + 2).fdiv 153
  let d := doy - (153 * mp + 2).fdiv 5 + 1
  let m := mp + (if mp < 10 then 3 else -9)
  (y + (if m ≤ 2 then 1 else 0), m, d)

/-- `month_key = f"{date.year}-{date.month:02d}"`, as the (year, month) pair (the
formatted string is injective in the pair). -/
def monthKeyOf (z : ℤ) : ℤ × ℤ := ((dayToYMD z).1, (dayToYMD z).2.1)

/- ===================== app.py : calculate_daily_balances ===================== -/

/-- Insert-or-update into a Python dict modelled as an association list in key
insertion order: an existing key keeps its position, a new key is appended. -/
def dinsert (k : ℤ) (v : ℚ) : List (ℤ × ℚ) → List (ℤ × ℚ)
  | [] => [(k, v)]
  | (k2, v2) :: rest =>
    if k2 = k then (k, v) :: rest else (k2, v2) :: dinsert k v rest

/-- Dict lookup. -/
def dlookup (k : ℤ) : List (ℤ × ℚ) → Option ℚ
  | [] => none
  | (k2, v) :: rest => if k2 = k then some v else dlookup k rest

/-- One day of the while loop: `current_balance` updated to the balance of the last
transaction of the day (in the order of `sorted_trans`) if there is one. -/
def lastTxBal (st : List BTx) (bal : ℚ) (d : ℤ) : ℚ :=
  match (st.filter (onDay d)).getLast? with
  | some t => t.balance
  | none => bal

/-- The `while current_date <= end_date` loop, unrolled over its iteration count:
record a balance for the current day, advance one day. -/
def dbLoopN (st : List BTx) : Nat → ℤ → ℚ → List (ℤ × ℚ) → List (ℤ × ℚ)
  | 0, _, _, acc => acc
  | n + 1, cur, bal, acc =>
    let bal2 := lastTxBal st bal cur
    dbLoopN st n (cur + 1) bal2 (dinsert cur bal2 acc)

/-- app.py `calculate_daily_balances`: sort, seed from `sorted_trans[0]['balance']`
(an `IndexError`, modelled as `none`, if the list is empty), pre-insert the start
day, then run the loop.  The loop runs once per day of `[start_date, end_date]`,
that is `(end_date + 1 - start_date).toNat` times. -/
def calculateDailyBalances (transactions : List BTx) (s e : ℤ) :
    Option (List (ℤ × ℚ)) :=
  let sorted := sortByDate transactions
  match sorted with
  | [] => none
  | t0 :: _ =>
    some (dbLoopN sorted (e + 1 - s).toNat s t0.balance (dinsert s t0.balance []))

/-- Lookup of one day in the result of `calculateDailyBalances`. -/
def calcLookup (transactions : List BTx) (s e d : ℤ) : Option ℚ :=
  (calculateDailyBalances transactions s e).bind (dlookup d)

/-- The value the carry-forward loop assigns to day `cur + m` when entering day `cur`
with running balance `bal` (specification-side recurrence used to state C4). -/
def dayVal (st : List BTx) (bal : ℚ) (cur : ℤ) : Nat → ℚ
  | 0 => lastTxBal st bal cur
  | m + 1 => dayVal st (lastTxBal st bal cur) (cur + 1) m

/-- The inclusive day range `[a, b]` as a list. -/
def rangeList (a b : ℤ) : List ℤ :=
  (List.range (b + 1 - a).toNat).map (fun i : Nat => a + (i : ℤ))

/- ===================== app.py : calculate_monthly_statistics ===================== -/

/-- Python `min` over a non-empty list, `none` (a `ValueError`) on the empty list. -/
def listMinD : List ℤ → Option ℤ
  | [] => none
  | x :: xs => some (xs.foldl min x)

/-- Python `max` over a non-empty list. -/
def listMaxD : List ℤ → Option ℤ
  | [] => none
  | x :: xs => some (xs.foldl max x)

/-- Round-half-even to an integer (Python 3 `round` on the exact value; the binary
float representation is abstracted to the exact rational). -/
def rhe (q : ℚ) : ℤ :=
  let f := Rat.floor q
  let r := q - f
  if r < 1 / 2 then f
  else if 1 / 2 < r then f + 1
  else if f % 2 = 0 then f else f + 1

/-- Python `round(q, 2)`. -/
def round2 (q : ℚ) : ℚ := (rhe (100 * q) : ℚ) / 100

/-- Python `round(q, 1)`. -/
def round1 (q : ℚ) : ℚ := (rhe (10 * q) : ℚ) / 10

/-- One month's entry of the `calculate_monthly_statistics` result.  The
human-readable `mab_calculation` strings are carried as their numeric payloads
(`mab_sum = round(total, 2)`, `mab_days = count`). -/
structure MonthStats where
  min_balance : ℚ
  max_balance : ℚ
  avg_balance : ℚ
  days_maintained : Nat
  daily_balances : List (ℤ × ℚ)
  mab_sum : ℚ
  mab_days : Nat
deriving DecidableEq

/-- The per-month body of `calculate_monthly_statistics`: the month's transactions
(grouping by key preserves document order, so the group is a filter), their min/max
dates, the daily balances over that span, then min/max/total/count of the daily
values and the rounded statistics.  `none` models the exceptions Python would raise
on an empty group (`min()` of an empty sequence, the seed `IndexError`); a key
produced by the grouping always has a non-empty group. -/
def monthEntry (trans : List BTx) (k : ℤ × ℤ) : Option ((ℤ × ℤ) × MonthStats) :=
  let mt := trans.filter (fun t => monthKeyOf t.date = k)
  match listMinD (mt.map (·.date)), listMaxD (mt.map (·.date)) with
  | some mn, some mx =>
    match calculateDailyBalances mt mn mx with
    | some db =>
      match db.map Prod.snd with
      | [] => none
      | b :: bs =>
        -- `sum(balances)`; addition on ℚ is commutative and associative, so the
        -- fold order of Python's `sum` is immaterial.
        let total := (b :: bs).sum
        let cnt := (b :: bs).length
        some (k,
          { min_balance := round2 (bs.foldl min b)
            max_balance := round2 (bs.foldl max b)
            avg_balance := round2 (total / (cnt : ℚ))
            days_maintained := cnt
            daily_balances := db
            mab_sum := round2 total
            mab_days := cnt })
    | none => none
  | _, _ => none

/-- The month keys in first-occurrence order (Python dicts preserve insertion
order). -/
def keysInOrder (trans : List BTx) : List (ℤ × ℤ) :=
  trans.foldl
    (fun ks t =>
      let k := monthKeyOf t.date
      if k ∈ ks then ks else ks ++ [k])
    []

/-- Building the result for each month key in order; a `none` from any month (an
uncaught Python exception) propagates. -/
def monthEntries (trans : List BTx) : List (ℤ × ℤ) → Option (List ((ℤ × ℤ) × MonthStats))
  | [] => some []
  | k :: ks =>
    match monthEntry trans k, monthEntries trans ks with
    | some ent, some rest => some (ent :: rest)
    | _, _ => none

/-- app.py `calculate_monthly_statistics`: `{}` for no transactions, otherwise one
entry per month. -/
def calculateMonthlyStatistics (trans : List BTx) :
    Option (List ((ℤ × ℤ) × MonthStats)) :=
  if trans = [] then some []
  else monthEntries trans (keysInOrder trans)

/- ===================== app.py : analyze_balance_maintenance ===================== -/

/-- The `status` strings, with their numeric payload (the `:.1f`-formatted
percentage is carried exactly). -/
inductive MaintStatus
  | noTransactions
  | noTarget
  | maintained (pct : ℚ)
  | belowTarget (pct : ℚ)
deriving DecidableEq

/-- The `recommendation` strings, with their numeric payloads. -/
inductive MaintRec
  | noData
  | setTarget
  | investExcess (avg excess : ℚ)
  | compliant (avg target : ℚ)
  | depositPlan (target minBalance monthlyDeposit : ℚ)
deriving DecidableEq

/-- The full result dictionary of `analyze_balance_maintenance` (statement_period as
the min/max day ordinals; their '%B %Y' rendering is abstracted). -/
structure MaintResult where
  average_balance : ℚ
  min_balance : ℚ
  max_balance : ℚ
  maintenance_status : MaintStatus
  recommendation : MaintRec
  target_balance : ℚ
  maintenance_percentage : ℚ
  statement_period : ℤ × ℤ
  balance_difference : ℚ
  is_below_target : Bool
deriving DecidableEq

/-- The early return for an empty transaction list has a different, three-key
schema. -/
inductive MaintOutput
  | emptyResult
  | result (r : MaintResult)
deriving DecidableEq

/-- The transaction-weighted average `sum(balances) / len(balances)` over the
transactions' balance fields, computed by `analyze_balance_maintenance`. -/
def txnAvg (l : List BTx) : ℚ :=
  (l.map (·.balance)).sum / ((l.map (·.balance)).length : ℚ)

/-- app.py `analyze_balance_maintenance`.  `float(target_balance) if target_balance
else 0` is the identity on a numeric target (`0` is falsy and maps to `0`). -/
def analyzeBalanceMaintenance (trans : List BTx) (target : ℚ) : MaintOutput :=
  match trans with
  | [] => .emptyResult
  | t :: ts =>
    let startD := (ts.map (·.date)).foldl min t.date
    let endD := (ts.map (·.date)).foldl max t.date
    let avg := txnAvg (t :: ts)
    let minB := (ts.map (·.balance)).foldl min t.balance
    let maxB := (ts.map (·.balance)).foldl max t.balance
    let pct := if target > 0 then avg / target * 100 else 0
    let sr : MaintStatus × MaintRec :=
      if target = 0 then
        (.noTarget, .setTarget)
      else if avg ≥ target then
        (.maintained pct,
         if avg > target * (3 / 2) then .investExcess avg (avg - target)
         else .compliant avg target)
      else
        (.belowTarget pct,
         .depositPlan target (max target (avg + (target - avg) / 3)) ((target - avg) / 3))
    .result
      { average_balance := round2 avg
        min_balance := round2 minB
        max_balance := round2 maxB
        maintenance_status := sr.1
        recommendation := sr.2
        target_balance := target
        maintenance_percentage := round1 pct
        statement_period := (startD, endD)
        balance_difference := round2 (if target > avg then target - avg else avg - target)
        is_below_target := target > avg }

/- ===================== concrete statement texts ===================== -/

/-- A statement with a header line and two single-line transaction blocks
(dated 1 Jan 2024 and 2 Feb 2024). -/
def twoBlockText : List Char :=
  ("Txn Date Description\n1 Jan 2024 pay  100.00  200.00\n2 Feb 2024 xyz  300.00  400.00").data

/-- A statement with a header line and one transaction block of two lines. -/
def multiLineBlockText : List Char :=
  ("Txn Date Description\n1 Jan 2024 foo\nbar  100.00  200.00").data

/-- The invariant maintained by the `parse_transactions` line loop: every
transaction finalized so far lacks the `"amount"` key; an open block starts with a
date-bearing line; a block is open whenever a transaction has been emitted or
`inside_table` is set. -/
def PInv (st : PState) : Prop :=
  (∀ tx ∈ st.transactions, tx.amountKey = none) ∧
  (∀ r0 rs, st.current_row = r0 :: rs → (searchDate r0).isSome) ∧
  (st.transactions ≠ [] → st.current_row ≠ []) ∧
  (st.inside_table = true → st.current_row ≠ [])

section Theorems

/- The Batteries definitions of `Rat.add`, `Rat.mul`, `Rat.sub` and `Rat.inv` are
`@[irreducible]`, which blocks the evaluation of concrete instances by `decide` and
`rfl`; restore the default reducibility for the proofs below.  This changes nothing
about the functions themselves. -/
attribute [local semireducible] Rat.add Rat.mul Rat.sub Rat.inv

/- ===================== helper lemmas : dictionary and loop ===================== -/

theorem dlookup_dinsert_self (k : ℤ) (v : ℚ) (l : List (ℤ × ℚ)) :
    dlookup k (dinsert k v l) = some v := by
  induction l with
  | nil => simp [dinsert, dlookup]
  | cons h t ih =>
    obtain ⟨k2, v2⟩ := h
    by_cases hk : k2 = k <;> simp [dinsert, hk, dlookup, ih]

theorem dlookup_dinsert_ne (k k2 : ℤ) (v : ℚ) (l : List (ℤ × ℚ)) (h : k2 ≠ k) :
    dlookup k (dinsert k2 v l) = dlookup k l := by
  induction l with
  | nil => simp [dinsert, dlookup, h]
  | cons p t ih =>
    obtain ⟨k3, v3⟩ := p
    show dlookup k (if k3 = k2 then (k2, v) :: t else (k3, v3) :: dinsert k2 v t) = _
    by_cases hk : k3 = k2
    · subst hk
      simp [dlookup, h]
    · rw [if_neg hk]
      show (if k3 = k then some v3 else dlookup k (dinsert k2 v t)) =
        (if k3 = k then some v3 else dlookup k t)
      rw [ih]

theorem dinsert_not_mem (k : ℤ) (v : ℚ) (l : List (ℤ × ℚ))
    (h : k ∉ l.map Prod.fst) : dinsert k v l = l ++ [(k, v)] := by
  induction l with
  | nil => simp [dinsert]
  | cons p t ih =>
    obtain ⟨k2, v2⟩ := p
    simp only [List.map_cons, List.mem_cons, not_or] at h
    have h21 : ¬ k2 = k := fun hh => h.1 hh.symm
    show (if k2 = k then (k, v) :: t else (k2, v2) :: dinsert k v t) = _
    rw [if_neg h21, ih h.2]
    simp

theorem dbLoopN_lookup_lt (st : List BTx) :
    ∀ (n : Nat) (cur : ℤ) (bal : ℚ) (acc : List (ℤ × ℚ)) (d : ℤ), d < cur →
      dlookup d (dbLoopN st n cur bal acc) = dlookup d acc := by
  intro n
  induction n with
  | zero => intro cur bal acc d _; rfl
  | succ n ih =>
    intro cur bal acc d hd
    show dlookup d (dbLoopN st n (cur + 1) _ _) = _
    rw [ih (cur + 1) _ _ d (by omega)]
    exact dlookup_dinsert_ne d cur _ acc (by omega)

theorem dbLoopN_lookup (st : List BTx) :
    ∀ (m n : Nat) (cur : ℤ) (bal : ℚ) (acc : List (ℤ × ℚ)), m < n →
      dlookup (cur + (m : ℤ)) (dbLoopN st n cur bal acc) =
        some (dayVal st bal cur m) := by
  intro m
  induction m with
  | zero =>
    intro n cur bal acc hn
    obtain ⟨n0, rfl⟩ : ∃ n0, n = n0 + 1 := ⟨n - 1, by omega⟩
    show dlookup (cur + ((0 : Nat) : ℤ)) (dbLoopN st n0 (cur + 1) _ _) = _
    rw [show cur + ((0 : Nat) : ℤ) = cur by omega]
    rw [dbLoopN_lookup_lt st n0 (cur + 1) _ _ cur (by omega)]
    exact dlookup_dinsert_self cur _ acc
  | succ m ih =>
    intro n cur bal acc hn
    obtain ⟨n0, rfl⟩ : ∃ n0, n = n0 + 1 := ⟨n - 1, by omega⟩
    show dlookup (cur + ((m + 1 : Nat) : ℤ)) (dbLoopN st n0 (cur + 1) _ _) = _
    rw [show cur + ((m + 1 : Nat) : ℤ) = (cur + 1) + (m : ℤ) by push_cast; ring]
    exact ih n0 (cur + 1) _ _ (by omega)

theorem range_map_shift (a : ℤ) (n : Nat) :
    (List.range (n + 1)).map (fun i : Nat => a + (i : ℤ)) =
      a :: (List.range n).map (fun i : Nat => (a + 1) + (i : ℤ)) := by
  rw [List.range_succ_eq_map]
  simp only [List.map_cons, Nat.cast_zero, add_zero, List.map_map]
  refine congrArg (a :: ·) (List.map_congr_left ?_)
  intro i _
  simp [Function.comp]
  ring

theorem dbLoopN_keys (st : List BTx) :
    ∀ (n : Nat) (cur : ℤ) (bal : ℚ) (acc : List (ℤ × ℚ)),
      (∀ k ∈ acc.map Prod.fst, k < cur) →
      (dbLoopN st n cur bal acc).map Prod.fst =
        acc.map Prod.fst ++ (List.range n).map (fun i : Nat => cur + (i : ℤ)) := by
  intro n
  induction n with
  | zero => intro cur bal acc _; simp [dbLoopN]
  | succ n ih =>
    intro cur bal acc hacc
    show (dbLoopN st n (cur + 1) _ (dinsert cur (lastTxBal st bal cur) acc)).map Prod.fst = _
    rw [dinsert_not_mem cur _ acc (fun hmem => absurd (hacc cur hmem) (by omega))]
    rw [ih (cur + 1) _ _ (by
      intro k hk
      simp only [List.map_append, List.mem_append, List.map_cons, List.map_nil] at hk
      rcases hk with hk | hk
      · exact lt_trans (hacc k hk) (by omega)
      · simp at hk; omega)]
    rw [range_map_shift cur n]
    simp

/- ===================== helper lemmas : the sort is stable per day ===================== -/

theorem filter_orderedInsert (d : ℤ) (x : BTx) (l : List BTx) :
    (List.orderedInsert (fun a b => a.date ≤ b.date) x l).filter (onDay d) =
      if onDay d x then x :: l.filter (onDay d) else l.filter (onDay d) := by
  induction l with
  | nil => by_cases hx : onDay d x <;> simp [List.orderedInsert, List.filter, hx]
  | cons y t ih =>
    by_cases hr : x.date ≤ y.date
    · by_cases hx : onDay d x <;> by_cases hy : onDay d y <;>
        simp [List.orderedInsert, hr, List.filter_cons, hx, hy]
    · have hyx : y.date < x.date := lt_of_not_le hr
      by_cases hx : onDay d x
      · have hy : onDay d y = false := by
          simp only [onDay, decide_eq_true_eq] at hx
          simp only [onDay, decide_eq_false_iff_not]
          omega
        simp [List.orderedInsert, hr, List.filter_cons, hx, hy, ih]
      · by_cases hy : onDay d y <;>
          simp [List.orderedInsert, hr, List.filter_cons, hx, hy, ih]

theorem filter_sortByDate (d : ℤ) (l : List BTx) :
    (sortByDate l).filter (onDay d) = l.filter (onDay d) := by
  induction l with
  | nil => rfl
  | cons x t ih =>
    show (List.orderedInsert _ x (sortByDate t)).filter (onDay d) = _
    rw [filter_orderedInsert]
    by_cases hx : onDay d x <;> simp [List.filter_cons, hx, ih]

/- ===================== helper lemmas : calculate_daily_balances ===================== -/

theorem sortByDate_ne_nil (trans : List BTx) (h : trans ≠ []) : sortByDate trans ≠ [] := by
  intro hnil
  have hlen := (List.perm_insertionSort (fun a b : BTx => a.date ≤ b.date) trans).length_eq
  rw [show List.insertionSort (fun a b : BTx => a.date ≤ b.date) trans = sortByDate trans from rfl,
    hnil] at hlen
  exact h (List.length_eq_zero.mp hlen.symm)

theorem calc_some (trans : List BTx) (h : trans ≠ []) (s e : ℤ) :
    ∃ t0 rest, sortByDate trans = t0 :: rest ∧
      calculateDailyBalances trans s e =
        some (dbLoopN (sortByDate trans) (e + 1 - s).toNat s t0.balance
          (dinsert s t0.balance [])) := by
  cases hs : sortByDate trans with
  | nil => exact absurd hs (sortByDate_ne_nil trans h)
  | cons t0 rest =>
    refine ⟨t0, rest, rfl, ?_⟩
    show (match sortByDate trans with
      | [] => none
      | t0 :: _ => some (dbLoopN (sortByDate trans) (e + 1 - s).toNat s t0.balance
          (dinsert s t0.balance []))) = _
    rw [hs]

theorem calcLookup_eq_dayVal (trans : List BTx) (s e d : ℤ) (hsd : s ≤ d)
    (hde : d ≤ e) (t0 : BTx) (rest : List BTx)
    (hs : sortByDate trans = t0 :: rest) :
    calcLookup trans s e d =
      some (dayVal (sortByDate trans) t0.balance s (d - s).toNat) := by
  have hcalc : calculateDailyBalances trans s e =
      some (dbLoopN (sortByDate trans) (e + 1 - s).toNat s t0.balance
        (dinsert s t0.balance [])) := by
    show (match sortByDate trans with
      | [] => none
      | t0 :: _ => some (dbLoopN (sortByDate trans) (e + 1 - s).toNat s t0.balance
          (dinsert s t0.balance []))) = _
    rw [hs]
  unfold calcLookup
  rw [hcalc, hs]
  obtain ⟨n0, hn⟩ : ∃ n0, (e + 1 - s).toNat = n0 + 1 := ⟨(e - s).toNat, by omega⟩
  rw [hn]
  show dlookup d (dbLoopN (t0 :: rest) n0 (s + 1) (lastTxBal (t0 :: rest) t0.balance s)
      (dinsert s (lastTxBal (t0 :: rest) t0.balance s) (dinsert s t0.balance []))) = _
  rw [show dinsert s (lastTxBal (t0 :: rest) t0.balance s) (dinsert s t0.balance []) =
      [(s, lastTxBal (t0 :: rest) t0.balance s)] by simp [dinsert]]
  rcases eq_or_lt_of_le hsd with rfl | hlt
  · rw [dbLoopN_lookup_lt _ n0 (s + 1) _ _ s (by omega)]
    rw [show (s - s).toNat = 0 by omega]
    simp [dlookup, dayVal]
  · rw [show d = (s + 1) + ((d - s - 1).toNat : ℤ) by omega]
    rw [dbLoopN_lookup _ (d - s - 1).toNat n0 (s + 1) _ _ (by omega)]
    rw [show ((s + 1) + ((d - s - 1).toNat : ℤ) - s).toNat = (d - s - 1).toNat + 1 by omega]
    rfl

theorem dayVal_succ (st : List BTx) :
    ∀ (m : Nat) (bal : ℚ) (cur : ℤ),
      dayVal st bal cur (m + 1) =
        lastTxBal st (dayVal st bal cur m) (cur + (m : ℤ) + 1) := by
  intro m
  induction m with
  | zero => intro bal cur; simp [dayVal]
  | succ m ih =>
    intro bal cur
    show dayVal st (lastTxBal st bal cur) (cur + 1) (m + 1) = _
    rw [ih (lastTxBal st bal cur) (cur + 1)]
    have : (cur + 1) + (m : ℤ) + 1 = cur + ((m + 1 : Nat) : ℤ) + 1 := by push_cast; ring
    rw [this]
    rfl

theorem calc_keys (trans : List BTx) (s e : ℤ) (h : trans ≠ []) (hse : s ≤ e)
    (db : List (ℤ × ℚ)) (hdb : calculateDailyBalances trans s e = some db) :
    db.map Prod.fst = rangeList s e := by
  obtain ⟨t0, rest, hs, hcalc⟩ := calc_some trans h s e
  rw [hcalc] at hdb
  obtain rfl : db = dbLoopN (sortByDate trans) (e + 1 - s).toNat s t0.balance
      (dinsert s t0.balance []) := (Option.some.injEq _ _ ▸ hdb).symm
  obtain ⟨n0, hn⟩ : ∃ n0, (e + 1 - s).toNat = n0 + 1 := ⟨(e - s).toNat, by omega⟩
  rw [hn]
  show (dbLoopN (sortByDate trans) n0 (s + 1) _
    (dinsert s (lastTxBal (sortByDate trans) t0.balance s) (dinsert s t0.balance []))).map Prod.fst = _
  rw [show dinsert s (lastTxBal (sortByDate trans) t0.balance s)
      (dinsert s t0.balance []) = [(s, lastTxBal (sortByDate trans) t0.balance s)] by
    simp [dinsert]]
  rw [dbLoopN_keys _ n0 (s + 1) _ _ (by intro k hk; simp at hk; omega)]
  rw [show rangeList s e = (List.range (n0 + 1)).map (fun i : Nat => s + (i : ℤ)) by
    rw [rangeList, hn]]
  rw [range_map_shift s n0]
  simp

theorem dayVal_unfold_last (st : List BTx) (b0 : ℚ) (s d : ℤ) (hsd : s ≤ d) :
    dayVal st b0 s (d - s).toNat =
      lastTxBal st (if s = d then b0 else dayVal st b0 s (d - 1 - s).toNat) d := by
  rcases eq_or_lt_of_le hsd with rfl | hlt
  · rw [if_pos rfl, show (s - s).toNat = 0 by omega]
    rfl
  · rw [if_neg (by omega)]
    rw [show (d - s).toNat = (d - 1 - s).toNat + 1 by omega]
    rw [dayVal_succ]
    rw [show s + (((d - 1 - s).toNat : ℕ) : ℤ) + 1 = d by omega]

/-- C3: for a non-empty transaction list and `start ≤ end`, the daily-balance map
has exactly `(end − start).days + 1` entries, its keys are precisely the calendar
days of the inclusive range, in order, with no duplicates and no gaps. -/
theorem claim3_timeline_keys (trans : List BTx) (s e : ℤ) (h : trans ≠ [])
    (hse : s ≤ e) :
    ∃ db, calculateDailyBalances trans s e = some db ∧
      db.map Prod.fst = rangeList s e ∧
      db.length = (e - s).toNat + 1 ∧
      (db.map Prod.fst).Nodup ∧
      ∀ d : ℤ, d ∈ db.map Prod.fst ↔ (s ≤ d ∧ d ≤ e) := by
  obtain ⟨t0, rest, hs, hcalc⟩ := calc_some trans h s e
  have hkeys := calc_keys trans s e h hse _ hcalc
  refine ⟨_, hcalc, hkeys, ?_, ?_, ?_⟩
  · have hlen := congrArg List.length hkeys
    rw [List.length_map] at hlen
    rw [hlen, rangeList, List.length_map, List.length_range]
    omega
  · rw [hkeys, rangeList]
    refine List.Nodup.map ?_ (List.nodup_range _)
    intro a b hab
    simp only at hab
    omega
  · intro d
    rw [hkeys, rangeList]
    simp only [List.mem_map, List.mem_range]
    constructor
    · rintro ⟨i, hi, rfl⟩
      omega
    · intro hd
      exact ⟨(d - s).toNat, by omega, by omega⟩

theorem claim3_timeline_keys_witness :
    (([⟨2, 100⟩, ⟨5, 300⟩] : List BTx) ≠ [] ∧ (1 : ℤ) ≤ 6) ∧
    (∃ db, calculateDailyBalances [⟨2, 100⟩, ⟨5, 300⟩] 1 6 = some db ∧
      db.map Prod.fst = rangeList 1 6 ∧
      db.length = ((6 : ℤ) - 1).toNat + 1 ∧
      (db.map Prod.fst).Nodup ∧
      ∀ d : ℤ, d ∈ db.map Prod.fst ↔ (1 ≤ d ∧ d ≤ 6)) :=
  ⟨⟨by decide, by decide⟩, claim3_timeline_keys [⟨2, 100⟩, ⟨5, 300⟩] 1 6 (by decide) (by decide)⟩

/-- C4: the timeline records, for each day with transactions, the balance of the
last such transaction in document order (the sort being stable, the filter of the
original list gives that order); for a day without transactions it carries the
previous day's balance forward, seeded on the start day from the chronologically
first transaction's balance (the head of the stable sort).  The second conjunct is
the concrete scenario: transactions on day 2 (balance 100) and day 5 (balance 300)
queried over days 1..6 give 100 on days 1-4 and 300 on days 5-6. -/
theorem claim4_carry_forward :
    (∀ (trans : List BTx) (s e : ℤ), trans ≠ [] → s ≤ e →
      ∀ (t0 : BTx) (rest : List BTx), sortByDate trans = t0 :: rest →
      ∀ d : ℤ, s ≤ d → d ≤ e →
        ((trans.filter (onDay d)) ≠ [] →
          ∃ last, (trans.filter (onDay d)).getLast? = some last ∧
            calcLookup trans s e d = some last.balance) ∧
        ((trans.filter (onDay d)) = [] →
          (d = s → calcLookup trans s e d = some t0.balance) ∧
          (s < d → calcLookup trans s e d = calcLookup trans s e (d - 1)))) ∧
    (calcLookup [⟨2, 100⟩, ⟨5, 300⟩] 1 6 1 = some 100 ∧
     calcLookup [⟨2, 100⟩, ⟨5, 300⟩] 1 6 2 = some 100 ∧
     calcLookup [⟨2, 100⟩, ⟨5, 300⟩] 1 6 3 = some 100 ∧
     calcLookup [⟨2, 100⟩, ⟨5, 300⟩] 1 6 4 = some 100 ∧
     calcLookup [⟨2, 100⟩, ⟨5, 300⟩] 1 6 5 = some 300 ∧
     calcLookup [⟨2, 100⟩, ⟨5, 300⟩] 1 6 6 = some 300) := by
  constructor
  · intro trans s e h hse t0 rest hs d hsd hde
    have hW := calcLookup_eq_dayVal trans s e d hsd hde t0 rest hs
    constructor
    · intro hne
      obtain ⟨last, hlast⟩ :=
        Option.isSome_iff_exists.mp (List.getLast?_isSome.mpr hne)
      refine ⟨last, hlast, ?_⟩
      rw [hW]
      congr 1
      rw [dayVal_unfold_last _ _ _ _ hsd]
      unfold lastTxBal
      rw [filter_sortByDate d trans, hlast]
    · intro hemp
      constructor
      · intro hds
        subst hds
        rw [hW]
        rw [dayVal_unfold_last _ _ _ _ hsd, if_pos (by omega)]
        unfold lastTxBal
        rw [filter_sortByDate d trans, hemp]
        rw [show (List.getLast? ([] : List BTx)) = none from rfl]
      · intro hlt
        have hW2 := calcLookup_eq_dayVal trans s e (d - 1) (by omega) (by omega) t0 rest hs
        rw [hW, hW2]
        congr 1
        rw [dayVal_unfold_last _ _ _ _ hsd, if_neg (by omega)]
        unfold lastTxBal
        rw [filter_sortByDate d trans, hemp]
        rw [show (List.getLast? ([] : List BTx)) = none from rfl]
  · exact ⟨by decide, by decide, by decide, by decide, by decide, by decide⟩

theorem claim4_carry_forward_witness :
    (([⟨2, 100⟩, ⟨5, 300⟩] : List BTx) ≠ [] ∧ (1 : ℤ) ≤ 6 ∧
      sortByDate [⟨2, 100⟩, ⟨5, 300⟩] = ⟨2, 100⟩ :: [⟨5, 300⟩] ∧
      ([⟨2, 100⟩, ⟨5, 300⟩] : List BTx).filter (onDay 5) ≠ []) ∧
    (∃ last, (([⟨2, 100⟩, ⟨5, 300⟩] : List BTx).filter (onDay 5)).getLast? = some last ∧
      calcLookup [⟨2, 100⟩, ⟨5, 300⟩] 1 6 5 = some last.balance) :=
  ⟨⟨by decide, by decide, by decide, by decide⟩,
    ((claim4_carry_forward.1 [⟨2, 100⟩, ⟨5, 300⟩] 1 6 (by decide) (by decide)
      ⟨2, 100⟩ [⟨5, 300⟩] (by decide) 5 (by decide) (by decide)).1 (by decide))⟩

/-- C8: on the empty transaction list the Balance Timeline Engine hits
`sorted_trans[0]` and fails with an `IndexError` (modelled as `none`) for every
date range; it never produces a balance map. -/
theorem claim8_empty_timeline_error (s e : ℤ) :
    calculateDailyBalances [] s e = none := rfl

/-- C9: the Monthly Statistics Aggregator returns the empty mapping on the empty
transaction list, raising no exception (the result is `some`, not `none`). -/
theorem claim9_monthly_empty :
    calculateMonthlyStatistics [] = some [] := by
  rfl

/- ===================== helper lemmas : monthly statistics ===================== -/

theorem foldl_min_le_init (xs : List ℤ) : ∀ x : ℤ, xs.foldl min x ≤ x := by
  induction xs with
  | nil => intro x; exact le_refl x
  | cons y ys ih => intro x; exact le_trans (ih (min x y)) (min_le_left x y)

theorem le_foldl_max (xs : List ℤ) : ∀ x : ℤ, x ≤ xs.foldl max x := by
  induction xs with
  | nil => intro x; exact le_refl x
  | cons y ys ih => intro x; exact le_trans (le_max_left x y) (ih (max x y))

theorem listMinD_le_listMaxD (l : List ℤ) (mn mx : ℤ) (h1 : listMinD l = some mn)
    (h2 : listMaxD l = some mx) : mn ≤ mx := by
  cases l with
  | nil => simp [listMinD] at h1
  | cons z zs =>
    simp only [listMinD, Option.some.injEq] at h1
    simp only [listMaxD, Option.some.injEq] at h2
    subst h1
    subst h2
    exact le_trans (foldl_min_le_init zs z) (le_foldl_max zs z)

theorem monthEntries_mem (trans : List BTx) :
    ∀ (ks : List (ℤ × ℤ)) (res : List ((ℤ × ℤ) × MonthStats)),
      monthEntries trans ks = some res →
      ∀ p ∈ res, ∃ k0 ∈ ks, monthEntry trans k0 = some p := by
  intro ks
  induction ks with
  | nil =>
    intro res h p hp
    simp only [monthEntries, Option.some.injEq] at h
    subst h
    simp at hp
  | cons k0 ks ih =>
    intro res h p hp
    simp only [monthEntries] at h
    split at h
    · next ent rest hent hrest =>
        obtain rfl : ent :: rest = res := by injection h
        rcases List.mem_cons.mp hp with rfl | hp2
        · exact ⟨k0, List.mem_cons_self _ _, hent⟩
        · obtain ⟨k1, hk1, he⟩ := ih rest hrest p hp2
          exact ⟨k1, List.mem_cons_of_mem _ hk1, he⟩
    · simp at h

theorem monthEntry_facts (trans : List BTx) (k : ℤ × ℤ) (p : (ℤ × ℤ) × MonthStats)
    (hent : monthEntry trans k = some p) :
    ∃ mn mx db b bs,
      listMinD ((trans.filter (fun t => monthKeyOf t.date = k)).map (·.date)) = some mn ∧
      listMaxD ((trans.filter (fun t => monthKeyOf t.date = k)).map (·.date)) = some mx ∧
      calculateDailyBalances (trans.filter (fun t => monthKeyOf t.date = k)) mn mx = some db ∧
      db.map Prod.snd = b :: bs ∧
      p = (k, { min_balance := round2 (bs.foldl min b)
                max_balance := round2 (bs.foldl max b)
                avg_balance := round2 ((b :: bs).sum / (((b :: bs).length : ℕ) : ℚ))
                days_maintained := (b :: bs).length
                daily_balances := db
                mab_sum := round2 (b :: bs).sum
                mab_days := (b :: bs).length }) := by
  simp only [monthEntry] at hent
  split at hent
  · next mn mx hmn hmx =>
      split at hent
      · next db hdb =>
          split at hent
          · simp at hent
          · next b bs hmap =>
              refine ⟨mn, mx, db, b, bs, hmn, hmx, hdb, hmap, ?_⟩
              injection hent with hh
              exact hh.symm
      · simp at hent
  · simp at hent

/-- C5: every month entry produced by the Monthly Statistics Aggregator has
`avg_balance` equal to the sum of that month's daily balances divided by the number
of days between the month's earliest and latest transaction dates inclusive
(`(mx − mn).days + 1`), rounded to 2 decimals; the denominator is the day count
spanned by that month's transactions (also recorded as `days_maintained` and in the
calculation breakdown), not the calendar month length. -/
theorem claim5_mab_denominator (trans : List BTx) (h : trans ≠ [])
    (res : List ((ℤ × ℤ) × MonthStats))
    (hres : calculateMonthlyStatistics trans = some res)
    (k : ℤ × ℤ) (ms : MonthStats) (hmem : (k, ms) ∈ res) :
    ∃ mn mx db,
      listMinD ((trans.filter (fun t => monthKeyOf t.date = k)).map (·.date)) = some mn ∧
      listMaxD ((trans.filter (fun t => monthKeyOf t.date = k)).map (·.date)) = some mx ∧
      mn ≤ mx ∧
      calculateDailyBalances (trans.filter (fun t => monthKeyOf t.date = k)) mn mx = some db ∧
      ms.daily_balances = db ∧
      ms.days_maintained = (mx - mn).toNat + 1 ∧
      ms.mab_days = (mx - mn).toNat + 1 ∧
      ms.avg_balance = round2 ((db.map Prod.snd).sum / (((mx - mn).toNat + 1 : ℕ) : ℚ)) := by
  have hres' : monthEntries trans (keysInOrder trans) = some res := by
    unfold calculateMonthlyStatistics at hres
    rwa [if_neg h] at hres
  obtain ⟨k0, hk0, hent⟩ := monthEntries_mem trans _ res hres' (k, ms) hmem
  obtain ⟨mn, mx, db, b, bs, h1, h2, hdb, hmap, hp⟩ := monthEntry_facts trans k0 (k, ms) hent
  have hkk : k = k0 := congrArg Prod.fst hp
  subst hkk
  have hms : ms = _ := congrArg Prod.snd hp
  have hmtne : trans.filter (fun t => monthKeyOf t.date = k) ≠ [] := by
    intro h0
    rw [h0] at h1
    simp [listMinD] at h1
  have hmnmx : mn ≤ mx := listMinD_le_listMaxD _ _ _ h1 h2
  have hkeys := calc_keys _ mn mx hmtne hmnmx db hdb
  have hcnt : (b :: bs).length = (mx - mn).toNat + 1 := by
    have hl1 : (db.map Prod.snd).length = db.length := List.length_map _ _
    rw [hmap] at hl1
    have hl2 := congrArg List.length hkeys
    rw [List.length_map, rangeList, List.length_map, List.length_range] at hl2
    omega
  refine ⟨mn, mx, db, h1, h2, hmnmx, hdb, ?_, ?_, ?_, ?_⟩
  · rw [hms]
  · rw [hms]
    exact hcnt
  · rw [hms]
    exact hcnt
  · rw [hms]
    show round2 ((b :: bs).sum / (((b :: bs).length : ℕ) : ℚ)) = _
    rw [hcnt, hmap]

theorem claim5_mab_denominator_witness :
    (([⟨19900, 100⟩] : List BTx) ≠ [] ∧
      calculateMonthlyStatistics [⟨19900, 100⟩] =
        some [((2024, 6),
          { min_balance := 100, max_balance := 100, avg_balance := 100,
            days_maintained := 1, daily_balances := [(19900, 100)],
            mab_sum := 100, mab_days := 1 })]) ∧
    (∃ mn mx db,
      listMinD ((([⟨19900, 100⟩] : List BTx).filter
        (fun t => monthKeyOf t.date = (2024, 6))).map (·.date)) = some mn ∧
      listMaxD ((([⟨19900, 100⟩] : List BTx).filter
        (fun t => monthKeyOf t.date = (2024, 6))).map (·.date)) = some mx ∧
      mn ≤ mx ∧
      calculateDailyBalances (([⟨19900, 100⟩] : List BTx).filter
        (fun t => monthKeyOf t.date = (2024, 6))) mn mx = some db ∧
      ({ min_balance := 100, max_balance := 100, avg_balance := 100,
         days_maintained := 1, daily_balances := [(19900, 100)],
         mab_sum := 100, mab_days := 1 } : MonthStats).daily_balances = db ∧
      ({ min_balance := 100, max_balance := 100, avg_balance := 100,
         days_maintained := 1, daily_balances := [(19900, 100)],
         mab_sum := 100, mab_days := 1 } : MonthStats).days_maintained = (mx - mn).toNat + 1 ∧
      ({ min_balance := 100, max_balance := 100, avg_balance := 100,
         days_maintained := 1, daily_balances := [(19900, 100)],
         mab_sum := 100, mab_days := 1 } : MonthStats).mab_days = (mx - mn).toNat + 1 ∧
      ({ min_balance := 100, max_balance := 100, avg_balance := 100,
         days_maintained := 1, daily_balances := [(19900, 100)],
         mab_sum := 100, mab_days := 1 } : MonthStats).avg_balance =
        round2 ((db.map Prod.snd).sum / (((mx - mn).toNat + 1 : ℕ) : ℚ))) :=
  ⟨⟨by decide, by decide⟩,
    claim5_mab_denominator [⟨19900, 100⟩] (by decide)
      [((2024, 6),
        { min_balance := 100, max_balance := 100, avg_balance := 100,
          days_maintained := 1, daily_balances := [(19900, 100)],
          mab_sum := 100, mab_days := 1 })] (by decide) (2024, 6)
      { min_balance := 100, max_balance := 100, avg_balance := 100,
        days_maintained := 1, daily_balances := [(19900, 100)],
        mab_sum := 100, mab_days := 1 } (by decide)⟩

/-- C6: for a non-empty transaction list, with `avg` the mean of the transaction
balances: a zero target gives the no-target status and the non-numeric set-a-target
recommendation; a positive target with `avg ≥ target` gives the maintained status,
recommending redeployment of the excess `avg − target` exactly when
`avg > 1.5 × target` and acknowledging compliance otherwise; a nonzero target with
`avg < target` gives the below-target status with suggested monthly deposit
`(target − avg)/3` and suggested minimum balance `max target (avg + (target − avg)/3)`
(the `avg < target` case is reached after the `target = 0` branch, as in the
source's if/elif/else chain). -/
theorem claim6_maintenance (trans : List BTx) (target : ℚ) (t : BTx) (ts : List BTx)
    (htr : trans = t :: ts) :
    ∃ r, analyzeBalanceMaintenance trans target = .result r ∧
      ((target = 0 → r.maintenance_status = .noTarget ∧ r.recommendation = .setTarget) ∧
       (0 < target → target ≤ txnAvg (t :: ts) →
         r.maintenance_status = .maintained (txnAvg (t :: ts) / target * 100) ∧
         (target * (3 / 2) < txnAvg (t :: ts) →
           r.recommendation = .investExcess (txnAvg (t :: ts)) (txnAvg (t :: ts) - target)) ∧
         (txnAvg (t :: ts) ≤ target * (3 / 2) →
           r.recommendation = .compliant (txnAvg (t :: ts)) target)) ∧
       (target ≠ 0 → txnAvg (t :: ts) < target →
         r.maintenance_status =
           .belowTarget (if target > 0 then txnAvg (t :: ts) / target * 100 else 0) ∧
         r.recommendation = .depositPlan target
           (max target (txnAvg (t :: ts) + (target - txnAvg (t :: ts)) / 3))
           ((target - txnAvg (t :: ts)) / 3))) := by
  subst htr
  refine ⟨_, rfl, ?_, ?_, ?_⟩
  · intro h0
    constructor
    · dsimp only
      rw [if_pos h0]
    · dsimp only
      rw [if_pos h0]
  · intro h1 h2
    have h0 : ¬ target = 0 := fun hh => absurd (hh ▸ h1) (lt_irrefl 0)
    have h2' : txnAvg (t :: ts) ≥ target := h2
    refine ⟨?_, ?_, ?_⟩
    · dsimp only
      rw [if_neg h0, if_pos h2', if_pos h1]
    · intro h3
      dsimp only
      rw [if_neg h0, if_pos h2', if_pos h3]
    · intro h3
      dsimp only
      rw [if_neg h0, if_pos h2', if_neg (not_lt.mpr h3)]
  · intro h0 h2
    have h2' : ¬ txnAvg (t :: ts) ≥ target := not_le.mpr h2
    constructor
    · dsimp only
      rw [if_neg h0, if_neg h2']
    · dsimp only
      rw [if_neg h0, if_neg h2']
theorem claim6_maintenance_witness :
    (([⟨1, 16000⟩] : List BTx) = (⟨1, 16000⟩ : BTx) :: []) ∧
    (∃ r, analyzeBalanceMaintenance [⟨1, 16000⟩] 10000 = .result r ∧
      (((10000 : ℚ) = 0 →
          r.maintenance_status = .noTarget ∧ r.recommendation = .setTarget) ∧
       ((0 : ℚ) < 10000 → (10000 : ℚ) ≤ txnAvg [⟨1, 16000⟩] →
         r.maintenance_status = .maintained (txnAvg [⟨1, 16000⟩] / 10000 * 100) ∧
         ((10000 : ℚ) * (3 / 2) < txnAvg [⟨1, 16000⟩] →
           r.recommendation =
             .investExcess (txnAvg [⟨1, 16000⟩]) (txnAvg [⟨1, 16000⟩] - 10000)) ∧
         (txnAvg [⟨1, 16000⟩] ≤ (10000 : ℚ) * (3 / 2) →
           r.recommendation = .compliant (txnAvg [⟨1, 16000⟩]) 10000)) ∧
       ((10000 : ℚ) ≠ 0 → txnAvg [⟨1, 16000⟩] < 10000 →
         r.maintenance_status =
           .belowTarget (if (10000 : ℚ) > 0 then txnAvg [⟨1, 16000⟩] / 10000 * 100 else 0) ∧
         r.recommendation = .depositPlan 10000
           (max 10000 (txnAvg [⟨1, 16000⟩] + (10000 - txnAvg [⟨1, 16000⟩]) / 3))
           ((10000 - txnAvg [⟨1, 16000⟩]) / 3)))) :=
  ⟨rfl, claim6_maintenance [⟨1, 16000⟩] 10000 ⟨1, 16000⟩ [] rfl⟩

/- ===================== helper lemmas : the date search survives appending ===================== -/

theorem digit_not_space (c : Char) (h : isPyDigit c = true) : isPySpace c = false := by
  simp only [isPyDigit, Bool.and_eq_true, decide_eq_true_eq] at h
  obtain ⟨h1, h2⟩ := h
  by_contra hcon
  rw [Bool.not_eq_false] at hcon
  simp only [isPySpace, Bool.or_eq_true, decide_eq_true_eq] at hcon
  rcases hcon with ((((rfl | rfl) | rfl) | rfl) | rfl) | rfl <;> exact absurd h1 (by decide)

theorem spanSpaces_append (t : List Char) :
    ∀ (cs s : List Char) (c : Char) (rest : List Char),
      spanSpaces cs = (s, c :: rest) →
      spanSpaces (cs ++ t) = (s, c :: (rest ++ t)) := by
  intro cs
  induction cs with
  | nil =>
    intro s c rest h
    simp [spanSpaces] at h
  | cons c0 cs0 ih =>
    intro s c rest h
    by_cases h0 : isPySpace c0
    · simp only [spanSpaces, h0, if_true] at h
      obtain ⟨h1, h2⟩ := Prod.mk.injEq _ _ _ _ ▸ h
      show spanSpaces (c0 :: (cs0 ++ t)) = _
      simp only [spanSpaces, h0, if_true]
      rw [ih (spanSpaces cs0).1 c rest (by rw [← h2])]
      rw [← h1]
    · simp only [spanSpaces, h0, if_false] at h
      obtain ⟨h1, h2⟩ := Prod.mk.injEq _ _ _ _ ▸ h
      show spanSpaces (c0 :: (cs0 ++ t)) = _
      simp only [spanSpaces, h0, if_false]
      rw [← h1]
      cases h2
      rfl

theorem monthMatchAux_append (t : List Char) :
    ∀ (names : List (List Char)), (∀ m ∈ names, m.length = 3) →
      ∀ (r : List Char) (mon r2 : List Char), 3 ≤ r.length →
        monthMatchAux names r = some (mon, r2) →
        monthMatchAux names (r ++ t) = some (mon, r2 ++ t) := by
  intro names
  induction names with
  | nil =>
    intro _ r mon r2 _ h
    simp [monthMatchAux] at h
  | cons m ms ih =>
    intro hlen r mon r2 hr h
    have hm3 : m.length = 3 := hlen m (List.mem_cons_self _ _)
    by_cases hp : m.isPrefixOf r
    · simp only [monthMatchAux, hp, if_true, Option.some.injEq, Prod.mk.injEq] at h
      obtain ⟨h1, h2⟩ := h
      have hp2 : m.isPrefixOf (r ++ t) = true := by
        rw [List.isPrefixOf_iff_prefix] at hp ⊢
        exact hp.trans (List.prefix_append r t)
      simp only [monthMatchAux, hp2, if_true, Option.some.injEq, Prod.mk.injEq]
      refine ⟨h1, ?_⟩
      rw [List.drop_append_of_le_length (by omega)]
      rw [← h2]
    · have hp2 : m.isPrefixOf (r ++ t) = false := by
        rw [Bool.eq_false_iff]
        intro hcon
        rw [List.isPrefixOf_iff_prefix] at hcon
        have : m <+: r :=
          List.prefix_of_prefix_length_le hcon (List.prefix_append r t) (by omega)
        rw [← List.isPrefixOf_iff_prefix] at this
        exact absurd this (by simp [hp])
      simp only [monthMatchAux, hp, if_false] at h
      simp only [monthMatchAux, hp2, if_false]
      exact ih (fun m hm => hlen m (List.mem_cons_of_mem _ hm)) r mon r2 hr h

theorem monthNames_length : ∀ m ∈ monthNames, m.length = 3 := by decide

theorem monthMatch_length (r mon r2 : List Char) (h : monthMatch r = some (mon, r2)) :
    3 ≤ r.length := by
  unfold monthMatch at h
  have : ∀ (names : List (List Char)), (∀ m ∈ names, m.length = 3) →
      monthMatchAux names r = some (mon, r2) → 3 ≤ r.length := by
    intro names
    induction names with
    | nil => intro _ hh; simp [monthMatchAux] at hh
    | cons m ms ih =>
      intro hlen hh
      by_cases hp : m.isPrefixOf r
      · rw [List.isPrefixOf_iff_prefix] at hp
        have := hp.length_le
        have hm3 : m.length = 3 := hlen m (List.mem_cons_self _ _)
        omega
      · simp only [monthMatchAux, hp, if_false] at hh
        exact ih (fun m hm => hlen m (List.mem_cons_of_mem _ hm)) hh
  exact this monthNames monthNames_length h

theorem monthMatch_append (t r mon r2 : List Char) (h : monthMatch r = some (mon, r2)) :
    monthMatch (r ++ t) = some (mon, r2 ++ t) :=
  monthMatchAux_append t monthNames monthNames_length r mon r2 (monthMatch_length r mon r2 h) h

theorem dateTail_append (t cs u : List Char) (h : dateTail cs = some u) :
    dateTail (cs ++ t) = some u := by
  unfold dateTail at h
  split at h
  · exact absurd h (by simp)
  · next c1 sp1 r1 hsp =>
    split at h
    · exact absurd h (by simp)
    · next mon r2 hmon =>
      split at h
      · exact absurd h (by simp)
      · next c2 sp2 r3 hsp2 =>
        split at h
        · next d1 d2 d3 d4 r7 =>
          split at h
          · next hdig =>
            have hr1 : 3 ≤ r1.length := monthMatch_length r1 mon r2 hmon
            obtain ⟨rh, rt, hr⟩ : ∃ rh rt, r1 = rh :: rt := by
              cases hc : r1 with
              | nil => rw [hc] at hr1; simp at hr1
              | cons x y => exact ⟨x, y, rfl⟩
            have e1 : spanSpaces (cs ++ t) = (c1 :: sp1, rh :: (rt ++ t)) :=
              spanSpaces_append t cs (c1 :: sp1) rh rt (by rw [← hr]; exact hsp)
            have e2 : monthMatch (r1 ++ t) = some (mon, r2 ++ t) :=
              monthMatch_append t r1 mon r2 hmon
            have e3 : spanSpaces (r2 ++ t) = (c2 :: sp2, d1 :: ((d2 :: d3 :: d4 :: r7) ++ t)) :=
              spanSpaces_append t r2 (c2 :: sp2) d1 (d2 :: d3 :: d4 :: r7) hsp2
            rw [hr] at e2
            unfold dateTail
            rw [e1]
            dsimp only
            rw [show rh :: (rt ++ t) = (rh :: rt) ++ t from rfl, e2]
            dsimp only
            rw [e3]
            show (if (isPyDigit d1 && isPyDigit d2 && isPyDigit d3 && isPyDigit d4) = true
                then some ((c1 :: sp1) ++ mon ++ (c2 :: sp2) ++ [d1, d2, d3, d4])
                else none) = some u
            rw [if_pos hdig]
            exact h
          · exact absurd h (by simp)
        · exact absurd h (by simp)

theorem matchDateAt_append (t cs u : List Char) (h : matchDateAt cs = some u) :
    matchDateAt (cs ++ t) = some u := by
  cases cs with
  | nil => simp [matchDateAt] at h
  | cons a rest =>
    cases rest with
    | nil => by_cases ha : isPyDigit a <;> simp [matchDateAt, ha] at h
    | cons b rest2 =>
      simp only [matchDateAt] at h
      show matchDateAt (a :: b :: (rest2 ++ t)) = some u
      simp only [matchDateAt]
      by_cases ha : isPyDigit a
      · rw [if_pos ha] at h ⊢
        by_cases hb : isPyDigit b
        · rw [if_pos hb] at h ⊢
          cases hdt : dateTail rest2 with
          | some u2 =>
            rw [hdt] at h
            rw [dateTail_append t rest2 u2 hdt]
            exact h
          | none =>
            rw [hdt] at h
            have hnone : dateTail (b :: rest2) = none := by
              unfold dateTail
              rw [show spanSpaces (b :: rest2) = ([], b :: rest2) by
                simp [spanSpaces, digit_not_space b hb]]
            rw [hnone] at h
            exact absurd h (by simp)
        · rw [if_neg hb] at h ⊢
          cases hdt : dateTail (b :: rest2) with
          | some u1 =>
            rw [hdt] at h
            rw [show b :: (rest2 ++ t) = (b :: rest2) ++ t from rfl,
              dateTail_append t (b :: rest2) u1 hdt]
            exact h
          | none =>
            rw [hdt] at h
            exact absurd h (by simp)
      · rw [if_neg ha] at h
        exact absurd h (by simp)

theorem searchDate_append (t l u : List Char) (h : searchDate l = some u) :
    (searchDate (l ++ t)).isSome = true := by
  induction l with
  | nil => simp [searchDate] at h
  | cons c cs ih =>
    rw [show searchDate (c :: cs) = (match matchDateAt (c :: cs) with
      | some cap => some cap
      | none => searchDate cs) from rfl] at h
    cases hm : matchDateAt (c :: cs) with
    | some cap =>
      have := matchDateAt_append t (c :: cs) cap hm
      show (searchDate (c :: (cs ++ t))).isSome = true
      rw [show searchDate (c :: (cs ++ t)) = (match matchDateAt (c :: (cs ++ t)) with
        | some cap => some cap
        | none => searchDate (cs ++ t)) from rfl]
      rw [show (c :: cs) ++ t = c :: (cs ++ t) from rfl] at this
      rw [this]
      rfl
    | none =>
      rw [hm] at h
      dsimp only at h
      have ih2 := ih h
      show (searchDate (c :: (cs ++ t))).isSome = true
      rw [show searchDate (c :: (cs ++ t)) = (match matchDateAt (c :: (cs ++ t)) with
        | some cap => some cap
        | none => searchDate (cs ++ t)) from rfl]
      cases hm2 : matchDateAt (c :: (cs ++ t)) with
      | some cap2 => rfl
      | none => exact ih2

theorem joinSpaces_cons (r : List Char) (rs : List (List Char)) :
    ∃ tl, joinSpaces (r :: rs) = r ++ tl := by
  cases rs with
  | nil => exact ⟨[], by simp [joinSpaces]⟩
  | cons r2 rs2 => exact ⟨' ' :: joinSpaces (r2 :: rs2), rfl⟩

/- ===================== helper lemmas : the parse_transactions loop ===================== -/

theorem processLine_inv (st : PState) (line : List Char) (h : PInv st) :
    PInv (processLine st line) := by
  obtain ⟨h1, h2, h3, h4⟩ := h
  unfold processLine
  by_cases hA : (!st.header_found && containsSub line "Txn Date".data &&
      containsSub line "Date".data && containsSub line "Description".data) = true
  · rw [if_pos hA]
    exact ⟨h1, h2, h3, h4⟩
  · rw [if_neg hA]
    by_cases hB : (!st.header_found) = true
    · rw [if_pos hB]
      exact ⟨h1, h2, h3, h4⟩
    · rw [if_neg hB]
      by_cases hC : (isBlank line || containsSub line "Txn Date".data) = true
      · rw [if_pos hC]
        exact ⟨h1, h2, h3, h4⟩
      · rw [if_neg hC]
        cases hsd : searchDate line with
        | none =>
          show PInv (if (st.inside_table && !isBlank line) = true then
            { st with current_row := st.current_row ++ [line] } else st)
          by_cases hD : (st.inside_table && !isBlank line) = true
          · rw [if_pos hD]
            have hit : st.inside_table = true := ((Bool.and_eq_true _ _).mp hD).1
            have hcrne : st.current_row ≠ [] := h4 hit
            refine ⟨h1, ?_, ?_, ?_⟩
            · intro r0 rs hcr
              cases hcs : st.current_row with
              | nil => exact absurd hcs hcrne
              | cons q qs =>
                rw [hcs] at hcr
                have hq : q = r0 := by injection hcr
                rw [← hq]
                exact h2 q qs hcs
            · intro _
              simp
            · intro _
              simp
          · rw [if_neg hD]
            exact ⟨h1, h2, h3, h4⟩
        | some ds =>
          refine ⟨?_, ?_, ?_, ?_⟩
          · intro tx htx
            show tx.amountKey = none
            replace htx : tx ∈ (if st.current_row ≠ [] then
                { st with transactions :=
                    st.transactions ++ [mkMidTx (joinSpaces st.current_row) ds] }
              else st).transactions := htx
            by_cases hcr : st.current_row ≠ []
            · rw [if_pos hcr] at htx
              rcases List.mem_append.mp htx with hin | hin
              · exact h1 tx hin
              · rw [List.mem_singleton.mp hin]
                rfl
            · rw [if_neg hcr] at htx
              exact h1 tx htx
          · intro r0 rs hcr
            replace hcr : [line] = r0 :: rs := hcr
            have hl : line = r0 := by injection hcr
            rw [← hl, hsd]
            rfl
          · intro _
            show ([line] : List (List Char)) ≠ []
            simp
          · intro _
            show ([line] : List (List Char)) ≠ []
            simp

theorem foldl_processLine_inv (lines : List (List Char)) :
    ∀ st, PInv st → PInv (lines.foldl processLine st) := by
  induction lines with
  | nil => intro st h; exact h
  | cons l ls ih => intro st h; exact ih _ (processLine_inv st l h)

/-- C10: in the list returned by `parse_transactions`, every record except possibly
the last lacks the `"amount"` key, and when the list is non-empty its last record is
the one built from the final block and carries `"amount" = -debit` when
`debit > 0` and `"amount" = credit` otherwise — so the returned records do not all
share one schema. -/
theorem claim10_amount_key (text : List Char) :
    (∀ tx ∈ (parseTransactions text).dropLast, tx.amountKey = none) ∧
    (∀ tx, (parseTransactions text).getLast? = some tx →
      tx.amountKey = some (if tx.debit > 0 then -tx.debit else tx.credit)) := by
  have hinv : PInv ((splitOnNL text).foldl processLine ⟨[], [], false, false⟩) :=
    foldl_processLine_inv _ _ ⟨by simp, by simp, by simp, by simp⟩
  obtain ⟨h1, h2, h3, h4⟩ := hinv
  unfold parseTransactions
  dsimp only
  by_cases hcr : ((splitOnNL text).foldl processLine ⟨[], [], false, false⟩).current_row = []
  · rw [if_pos hcr]
    have htr : ((splitOnNL text).foldl processLine ⟨[], [], false, false⟩).transactions = [] := by
      by_contra hne
      exact h3 hne hcr
    rw [htr]
    constructor
    · intro tx htx
      simp at htx
    · intro tx htx
      simp at htx
  · rw [if_neg hcr]
    obtain ⟨r0, rs, hcrr⟩ : ∃ r0 rs,
        ((splitOnNL text).foldl processLine ⟨[], [], false, false⟩).current_row = r0 :: rs := by
      cases hc : ((splitOnNL text).foldl processLine ⟨[], [], false, false⟩).current_row with
      | nil => exact absurd hc hcr
      | cons a b => exact ⟨a, b, rfl⟩
    obtain ⟨cap, hcap⟩ := Option.isSome_iff_exists.mp (h2 r0 rs hcrr)
    obtain ⟨tl, hjoin⟩ := joinSpaces_cons r0 rs
    have hsearch : (searchDate (joinSpaces
        ((splitOnNL text).foldl processLine ⟨[], [], false, false⟩).current_row)).isSome = true := by
      rw [hcrr, hjoin]
      exact searchDate_append tl r0 cap hcap
    obtain ⟨ds, hds⟩ := Option.isSome_iff_exists.mp hsearch
    rw [hds]
    dsimp only
    constructor
    · intro tx htx
      rw [List.dropLast_concat] at htx
      exact h1 tx htx
    · intro tx htx
      rw [List.getLast?_concat] at htx
      have he : mkFinalTx (joinSpaces
          ((splitOnNL text).foldl processLine ⟨[], [], false, false⟩).current_row) ds = tx := by
        injection htx
      rw [← he]
      rfl

theorem claim10_amount_key_witness :
    ∃ tx, (parseTransactions twoBlockText).getLast? = some tx ∧
      tx.amountKey = some (if tx.debit > 0 then -tx.debit else tx.credit) :=
  ⟨⟨"2 Feb 2024".data, 0, 300, 400, some 300, "2 Feb 2024 xyz  300.00  400.00".data⟩,
    by decide, (claim10_amount_key twoBlockText).2 _ (by decide)⟩

/-- C1: whenever the joined block text yields at least two amount matches, the
built transaction has balance equal to the last match, the transaction amount (the
second-to-last match) lands in `debit` when the lower-cased text contains one of
the debit keywords and in `credit` otherwise, the other of the two is 0, and the
two are never both nonzero.  Both the mid-document and the final-block constructors
are covered. -/
theorem claim1_two_amounts (ft : List Char) (h : 2 ≤ (findAmounts ft).length) :
    ∃ a b, (findAmounts ft).getLast? = some b ∧
      (findAmounts ft).dropLast.getLast? = some a ∧
      ∀ ds : List Char, ∀ tx ∈ [mkMidTx ft ds, mkFinalTx ft ds],
        tx.balance = b ∧
        (isDebitText ft = true → tx.debit = a ∧ tx.credit = 0) ∧
        (isDebitText ft = false → tx.credit = a ∧ tx.debit = 0) ∧
        ¬(tx.debit ≠ 0 ∧ tx.credit ≠ 0) := by
  have hlen : 2 ≤ (findAmounts ft).reverse.length := by
    rw [List.length_reverse]
    exact h
  obtain ⟨b, a, tl, hrev⟩ : ∃ b a tl, (findAmounts ft).reverse = b :: a :: tl := by
    cases hr : (findAmounts ft).reverse with
    | nil => rw [hr] at hlen; simp at hlen
    | cons b r2 =>
      cases r2 with
      | nil => rw [hr] at hlen; simp at hlen
      | cons a tl => exact ⟨b, a, tl, rfl⟩
  have hl : findAmounts ft = (tl.reverse ++ [a]) ++ [b] := by
    have h2 := congrArg List.reverse hrev
    rw [List.reverse_reverse] at h2
    rw [h2]
    simp
  have hcore : buildCore ft = if isDebitText ft then (a, 0, b) else (0, a, b) := by
    unfold buildCore
    rw [hrev]
  refine ⟨a, b, ?_, ?_, ?_⟩
  · rw [hl]
    exact List.getLast?_concat _
  · rw [hl, List.dropLast_concat]
    exact List.getLast?_concat _
  · intro ds tx htx
    have hfields : tx = mkMidTx ft ds ∨ tx = mkFinalTx ft ds := by
      simpa using htx
    by_cases hdeb : isDebitText ft
    · rw [if_pos hdeb] at hcore
      rcases hfields with rfl | rfl <;>
        exact ⟨by simp [mkMidTx, mkFinalTx, hcore],
          fun _ => ⟨by simp [mkMidTx, mkFinalTx, hcore], by simp [mkMidTx, mkFinalTx, hcore]⟩,
          fun hf => absurd hdeb (by simp [hf]),
          by simp [mkMidTx, mkFinalTx, hcore]⟩
    · rw [if_neg hdeb] at hcore
      rcases hfields with rfl | rfl <;>
        exact ⟨by simp [mkMidTx, mkFinalTx, hcore],
          fun hf => absurd hf (by simp [hdeb]),
          fun _ => ⟨by simp [mkMidTx, mkFinalTx, hcore], by simp [mkMidTx, mkFinalTx, hcore]⟩,
          by simp [mkMidTx, mkFinalTx, hcore]⟩

theorem claim1_two_amounts_witness :
    2 ≤ (findAmounts ("x  1,000.00  2,000.00").data).length ∧
    (∃ a b, (findAmounts ("x  1,000.00  2,000.00").data).getLast? = some b ∧
      (findAmounts ("x  1,000.00  2,000.00").data).dropLast.getLast? = some a ∧
      ∀ ds : List Char, ∀ tx ∈ [mkMidTx ("x  1,000.00  2,000.00").data ds,
          mkFinalTx ("x  1,000.00  2,000.00").data ds],
        tx.balance = b ∧
        (isDebitText ("x  1,000.00  2,000.00").data = true → tx.debit = a ∧ tx.credit = 0) ∧
        (isDebitText ("x  1,000.00  2,000.00").data = false → tx.credit = a ∧ tx.debit = 0) ∧
        ¬(tx.debit ≠ 0 ∧ tx.credit ≠ 0)) :=
  ⟨by decide, claim1_two_amounts ("x  1,000.00  2,000.00").data (by decide)⟩

/-- C2, evaluated at the failing input: in a two-block statement, the transaction
built from the first block carries the date matched on the second block's first
line ("2 Feb 2024"), not the date on its own first line ("1 Jan 2024") — the code
reuses `date_match` of the line that starts the next block (pdf_parser.py line
151-152). -/
theorem claim2_date_from_next_block :
    (parseTransactions twoBlockText).map Transaction.date =
      ["2 Feb 2024".data, "2 Feb 2024".data] ∧
    (splitOnNL twoBlockText).get? 1 = some ("1 Jan 2024 pay  100.00  200.00").data ∧
    searchDate ("1 Jan 2024 pay  100.00  200.00").data = some ("1 Jan 2024").data ∧
    ("2 Feb 2024").data ≠ ("1 Jan 2024").data :=
  ⟨by decide, by decide, by decide, by decide⟩

/-- C7, evaluated at the failing input: the lines of a block are joined with
spaces, so the joined text contains no newline and `full_text.split("\n")[0]` is
the whole joined block, not the block's first raw line — contradicting the
source's own comment "Use first line as description". -/
theorem claim7_description_whole_block :
    (parseTransactions multiLineBlockText).map Transaction.description =
      [("1 Jan 2024 foo bar  100.00  200.00").data] ∧
    (splitOnNL multiLineBlockText).get? 1 = some ("1 Jan 2024 foo").data ∧
    ("1 Jan 2024 foo bar  100.00  200.00").data ≠ ("1 Jan 2024 foo").data :=
  ⟨by decide, by decide, by decide⟩

end Theorems
